import Mathlib

/-!
Shallow embedding of `scripts/store_manager.py`, a single-file F-Droid
metadata scraper.

Python strings are modelled as `List Char`.  The two external black boxes
named by the spec — the HTTP transport and the HTML parser — are modelled
together as an `Oracle`: a function from the fetched URL to either an
exception or a status code plus the parsed pieces of the page (a `Page`).
The catalog file is modelled as an `FsRead` state (absent / unreadable /
a parsed list of records).  All definitions below follow the Python source
line by line; comments cite the Python construct they embed.
-/

/-- Char-list form of a string literal; Python strings are `List Char` here. -/
def lit (s : String) : List Char := s.data

/-- Python `str.strip()`: drop leading and trailing whitespace. -/
def pyStrip (l : List Char) : List Char :=
  ((l.dropWhile Char.isWhitespace).reverse.dropWhile Char.isWhitespace).reverse

/-- Python `str.rstrip(c)` for a one-character argument: drop every trailing `c`. -/
def pyRstrip (c : Char) (l : List Char) : List Char :=
  (l.reverse.dropWhile (fun x => x == c)).reverse

/-- Python `str.split(sep)` for a one-character separator: keeps empty pieces,
and yields `[""]` on the empty string, exactly like Python. -/
def pySplit (sep : Char) : List Char → List (List Char)
  | [] => [[]]
  | c :: rest =>
    if c == sep then [] :: pySplit sep rest
    else
      match pySplit sep rest with
      | [] => [[c]]
      | s :: ss => (c :: s) :: ss

/-- Python `xs[-1]` on a split result (a split result is never empty). -/
def pyLast (xs : List (List Char)) : List Char := xs.getLastD []

/-- Python `xs[0]` on a split result (a split result is never empty). -/
def pyHead (xs : List (List Char)) : List Char := xs.headD []

/-- Fuel-driven body of Python `str.replace`: replaces non-overlapping
occurrences of `pat` left to right.  The fuel starts at the length of the
subject and never runs out for a non-empty `pat`. -/
def replaceFuel (pat repl : List Char) : Nat → List Char → List Char
  | 0, l => l
  | _ + 1, [] => []
  | fuel + 1, c :: rest =>
    if pat ≠ [] ∧ pat.isPrefixOf (c :: rest) then
      repl ++ replaceFuel pat repl fuel ((c :: rest).drop pat.length)
    else
      c :: replaceFuel pat repl fuel rest

/-- Python `s.replace(pat, repl)`; only ever used with a non-empty `pat`. -/
def replaceL (pat repl l : List Char) : List Char := replaceFuel pat repl l.length l

/-- Python `needle in hay` substring test. -/
def pyContains (needle : List Char) : List Char → Bool
  | [] => needle.isEmpty
  | c :: rest => needle.isPrefixOf (c :: rest) || pyContains needle rest

/-- One catalog entry, matching the dict built by `get_fdroid_metadata`.
Fields the Python code reads with `dict.get` — and which hand-edited JSON
may therefore omit — are `Option`-valued (`none` = key absent).  `repoUrl`
is read as `app.get('repoUrl', '')`, so an absent key is indistinguishable
from the empty string and is modelled as `[]`. -/
structure AppRecord where
  id : List Char
  name : List Char
  description : List Char
  icon : List Char
  version : List Char
  latestVersion : Option (List Char)
  downloadUrl : List Char
  repoUrl : List Char
  githubRepo : List Char
  releaseKeyword : List Char
  packageName : Option (List Char)
  category : List Char
  platform : List Char
  size : List Char
  author : Option (List Char)
  screenshots : List (List Char)
deriving DecidableEq

/-- Parsed pieces of the first `package-version` block of a page:
the text of its `package-version-header` child (if any) and the hrefs of
its anchor elements, in document order (an anchor with no href is `[]`). -/
structure VersionItem where
  header : Option (List Char)
  links : List (List Char)
deriving DecidableEq

/-- What the HTML parser extracts from a fetched page: the text of the
`package-name` and `package-summary` elements, the `src` of the
`package-icon` element, the `src` attributes of the screenshot images
(a missing `src` is indistinguishable from `""` to the code and is `[]`),
and the first `package-version` block. -/
structure Page where
  title : Option (List Char)
  summary : Option (List Char)
  iconSrc : Option (List Char)
  screenshots : List (List Char)
  versionItem : Option VersionItem
deriving DecidableEq

/-- Outcome of one fetch-and-parse round trip: `exn` stands for any
exception raised inside the `try` block of `get_fdroid_metadata`
(network error, timeout, parse error); `resp` is a completed HTTP
response with its status code and parsed body. -/
inductive FetchOutcome where
  | exn : FetchOutcome
  | resp (status : Nat) (page : Page) : FetchOutcome
deriving DecidableEq

/-- The network plus HTML parser, keyed by the fetched URL. -/
abbrev Oracle := List Char → FetchOutcome

/-- State of the `apps.json` file as seen by one `load_apps` call:
missing, unreadable or malformed (any `json.load` exception), or a
well-formed list of records. -/
inductive FsRead where
  | absent
  | unreadable
  | content (apps : List AppRecord)
deriving DecidableEq

/-- Embeds `load_apps`: a missing file yields `[]`, a read or parse
failure is caught and yields `[]`, otherwise the parsed list is returned. -/
def load_apps : FsRead → List AppRecord
  | .absent => []
  | .unreadable => []
  | .content apps => apps

/-- Embeds the input normalization of `get_fdroid_metadata`:
`package_id = package_input.strip()`, then if `'f-droid.org' in package_id`,
`package_id = package_id.rstrip('/').split('/')[-1]`. -/
def cleanId (package_input : List Char) : List Char :=
  let p := pyStrip package_input
  if pyContains (lit "f-droid.org") p then pyLast (pySplit '/' (pyRstrip '/' p)) else p

/-- Embeds `url = f"{FDROID_BASE_URL}{package_id}/"`. -/
def urlOf (package_id : List Char) : List Char :=
  lit "https://f-droid.org/en/packages/" ++ package_id ++ ['/']

/-- Embeds the recurring URL normalization
`f"https://f-droid.org{u}" if not u.startswith('http') else u`. -/
def normUrl (u : List Char) : List Char :=
  if (lit "http").isPrefixOf u then u else lit "https://f-droid.org" ++ u

/-- Embeds the version extraction of `get_fdroid_metadata`: default
`"Latest"`; when the version block and its header exist, the header text
goes through `raw.replace('Version', '').strip().split(' ')[0]`. -/
def extractVersion (p : Page) : List Char :=
  match p.versionItem with
  | none => lit "Latest"
  | some vi =>
    match vi.header with
    | none => lit "Latest"
    | some raw => pyHead (pySplit ' ' (pyStrip (replaceL (lit "Version") [] raw)))

/-- Embeds the APK-link extraction: default `"#"`; otherwise the first
anchor whose href is truthy and ends in `.apk`, URL-normalized. -/
def extractDownload (p : Page) : List Char :=
  match p.versionItem with
  | none => lit "#"
  | some vi =>
    match vi.links.find? (fun h => !h.isEmpty && (lit ".apk").isSuffixOf h) with
    | none => lit "#"
    | some href => normUrl href

/-- Embeds the dict literal returned by `get_fdroid_metadata` on a 200
response, field by field in source order. -/
def buildRecord (package_id url : List Char) (p : Page) : AppRecord where
  id := replaceL ['.'] ['-'] package_id
  name := p.title.getD package_id
  description := p.summary.getD (lit "No description available.")
  icon :=
    match p.iconSrc with
    | none => []
    | some u => if u ≠ [] then normUrl u else []
  version := extractVersion p
  latestVersion := some (extractVersion p)
  downloadUrl := extractDownload p
  repoUrl := url
  githubRepo := []
  releaseKeyword := package_id
  packageName := some package_id
  category := lit "Utility"
  platform := lit "Android"
  size := lit "Varies"
  author := some (lit "F-Droid")
  screenshots := (p.screenshots.filter (fun s => !s.isEmpty)).map normUrl

/-- Embeds `get_fdroid_metadata`: normalize the input, build the URL,
fetch; any exception → `None`; a non-200 status → `None`; otherwise the
fully populated record. -/
def get_fdroid_metadata (o : Oracle) (package_input : List Char) : Option AppRecord :=
  let package_id := cleanId package_input
  let url := urlOf package_id
  match o url with
  | .exn => none
  | .resp status page => if status ≠ 200 then none else some (buildRecord package_id url page)

/-- True when the fetched page has no version header, i.e. the
`package-version` block is missing or lacks a `package-version-header`. -/
def lacksVersionHeader (p : Page) : Bool :=
  match p.versionItem with
  | none => true
  | some vi => vi.header.isNone

/-- Embeds the body of the `for app in apps` loop of `update_all` for one
record: the OR filter (`'f-droid.org' not in repo and author != 'F-Droid'`
skips), the `if not pkg` skip, the re-extraction, and the guarded field
overwrite.  Returns the (possibly updated) record and its contribution to
`updated_count`. -/
def update_one (o : Oracle) (app : AppRecord) : AppRecord × Nat :=
  if pyContains (lit "f-droid.org") app.repoUrl = false ∧ app.author ≠ some (lit "F-Droid") then
    (app, 0)
  else
    match app.packageName with
    | none => (app, 0)
    | some pkg =>
      if pkg = [] then (app, 0)
      else
        match get_fdroid_metadata o pkg with
        | none => (app, 0)
        | some nd =>
          if nd.latestVersion.getD [] ≠ app.latestVersion.getD (lit "0.0.0")
              ∧ nd.latestVersion.getD [] ≠ lit "Unknown" then
            ({ app with
                version := nd.latestVersion.getD []
                latestVersion := some (nd.latestVersion.getD [])
                downloadUrl := nd.downloadUrl
                icon := if nd.icon ≠ [] then nd.icon else app.icon }, 1)
          else (app, 0)

/-- The `for app in apps` loop of `update_all`: each record is processed by
`update_one`, and the contributions to `updated_count` are summed. -/
def sweepList (o : Oracle) : List AppRecord → List AppRecord × Nat
  | [] => ([], 0)
  | a :: rest =>
    let r := update_one o a
    let s := sweepList o rest
    (r.1 :: s.1, r.2 + s.2)

/-- Embeds `update_all`: load the catalog, sweep every record, and save
(replace the file content) only when `updated_count > 0`. -/
def update_all (o : Oracle) (fs : FsRead) : FsRead × Nat :=
  let apps := load_apps fs
  let s := sweepList o apps
  (if s.2 > 0 then FsRead.content s.1 else fs, s.2)

/-- Embeds `package_id = line.rstrip('/').split('/')[-1]` of
`sync_tracked_apps`. -/
def deriveId (line : List Char) : List Char := pyLast (pySplit '/' (pyRstrip '/' line))

/-- Embeds the list comprehension of `sync_tracked_apps`:
`[l.strip() for l in f.readlines() if l.strip() and not l.startswith('#')]`
(lines are given without their trailing newline, which `strip` would
remove and `startswith` never sees). -/
def filterTracked (raw : List (List Char)) : List (List Char) :=
  (raw.filter (fun l => !(pyStrip l).isEmpty && !(['#'].isPrefixOf l))).map pyStrip

/-- The `for line in lines` loop of `sync_tracked_apps`: derive the id,
skip it when some record already carries it as `packageName`, otherwise
extract and append on success.  Returns the catalog and the
`is_modified` flag. -/
def reconcile (o : Oracle) : List (List Char) → List AppRecord → List AppRecord × Bool
  | [], apps => (apps, false)
  | line :: rest, apps =>
    if apps.any (fun a => decide (a.packageName = some (deriveId line))) then
      reconcile o rest apps
    else
      match get_fdroid_metadata o (deriveId line) with
      | some nd => ((reconcile o rest (apps ++ [nd])).1, true)
      | none => reconcile o rest apps

/-- Embeds `sync_tracked_apps`: an absent tracked file returns early
(`return`) without touching anything; otherwise filter the lines, load
the catalog, run the reconcile loop, save when modified, and finally call
`update_all` (which re-loads from the persisted state).  The `Bool`
records whether `update_all` was invoked. -/
def sync_tracked_apps (o : Oracle) (tracked : Option (List (List Char))) (fs : FsRead) :
    FsRead × Bool :=
  match tracked with
  | none => (fs, false)
  | some raw =>
    let lines := filterTracked raw
    let apps := load_apps fs
    let r := reconcile o lines apps
    let fs' := if r.2 then FsRead.content r.1 else fs
    ((update_all o fs').1, true)

/-- Observable effect of the `__main__` dispatch. -/
inductive CliEffect where
  | usageMsg
  | ranSync
  | ranUpdate
  | unknownMsg
deriving DecidableEq

/-- Embeds the `__main__` block, applied to `sys.argv[1:]`: no argument
prints usage and calls `sys.exit(1)`; `sync` and `update` dispatch; any
other first argument prints an error and falls off the end of the script
(no explicit exit).  The first component is the explicitly requested exit
code, `none` meaning the interpreter's default. -/
def cliMain (args : List (List Char)) : Option Nat × CliEffect :=
  match args with
  | [] => (some 1, .usageMsg)
  | c :: _ =>
    if c = lit "sync" then (none, .ranSync)
    else if c = lit "update" then (none, .ranUpdate)
    else (none, .unknownMsg)

theorem pyContains_iff (n : List Char) : ∀ h : List Char, pyContains n h = true ↔ n <:+: h := by
  intro h
  induction h with
  | nil => simp [pyContains, List.isEmpty_iff]
  | cons c rest ih =>
    simp [pyContains, ih, List.infix_cons_iff, List.isPrefixOf_iff_prefix]

theorem dropWhile_eq_self_of_false (p : Char → Bool) (l : List Char)
    (h : ∀ c ∈ l, p c = false) : l.dropWhile p = l := by
  cases l with
  | nil => rfl
  | cons c t =>
    rw [List.dropWhile_cons, h c (List.mem_cons_self c t)]
    simp

theorem infix_dropWhile_of (p : Char → Bool) {ns : List Char} (hne : ns ≠ [])
    (hns : ∀ c ∈ ns, p c = false) :
    ∀ {l : List Char}, ns <:+: l → ns <:+: l.dropWhile p := by
  intro l
  induction l with
  | nil => intro h; simpa using h
  | cons c rest ih =>
    intro h
    by_cases hc : p c = true
    · rw [List.dropWhile_cons, hc, if_pos rfl]
      apply ih
      obtain ⟨s, t, hst⟩ := h
      cases s with
      | nil =>
        cases ns with
        | nil => exact absurd rfl hne
        | cons n ns' =>
          simp only [List.nil_append, List.cons_append, List.cons.injEq] at hst
          have hfn := hns n (List.mem_cons_self n ns')
          rw [hst.1] at hfn
          rw [hfn] at hc
          cases hc
      | cons a s' =>
        simp only [List.cons_append, List.cons.injEq] at hst
        exact ⟨s', t, hst.2⟩
    · rw [List.dropWhile_cons, eq_false_of_ne_true hc, if_neg (by simp)]
      exact h

theorem pyStrip_infix_self (l : List Char) : pyStrip l <:+: l := by
  unfold pyStrip
  have h1 : l.dropWhile Char.isWhitespace <:+ l := List.dropWhile_suffix _
  have h2 : (l.dropWhile Char.isWhitespace).reverse.dropWhile Char.isWhitespace <:+
      (l.dropWhile Char.isWhitespace).reverse := List.dropWhile_suffix _
  have h3 : ((l.dropWhile Char.isWhitespace).reverse.dropWhile Char.isWhitespace).reverse <+:
      l.dropWhile Char.isWhitespace := by
    rw [← List.reverse_suffix]
    simpa using h2
  exact h3.isInfix.trans h1.isInfix

theorem infix_pyStrip_iff {ns : List Char} (hne : ns ≠ [])
    (hns : ∀ c ∈ ns, c.isWhitespace = false) (l : List Char) :
    ns <:+: pyStrip l ↔ ns <:+: l := by
  constructor
  · intro h; exact h.trans (pyStrip_infix_self l)
  · intro h
    have h1 : ns <:+: l.dropWhile Char.isWhitespace := infix_dropWhile_of _ hne hns h
    have h2 : ns.reverse <:+: (l.dropWhile Char.isWhitespace).reverse :=
      List.reverse_infix.mpr h1
    have h3 : ns.reverse <:+: (l.dropWhile Char.isWhitespace).reverse.dropWhile Char.isWhitespace :=
      infix_dropWhile_of _ (by simpa using hne) (by simpa using hns) h2
    unfold pyStrip
    have h4 := List.reverse_infix.mpr h3
    simpa using h4

theorem pyContains_pyStrip {ns : List Char} (hne : ns ≠ [])
    (hns : ∀ c ∈ ns, c.isWhitespace = false) (l : List Char) :
    pyContains ns (pyStrip l) = pyContains ns l := by
  rcases hc : pyContains ns l with _ | _
  · rcases hc' : pyContains ns (pyStrip l) with _ | _
    · rfl
    · have := (infix_pyStrip_iff hne hns l).mp ((pyContains_iff ns (pyStrip l)).mp hc')
      rw [← pyContains_iff ns l] at this
      rw [this] at hc
      cases hc
  · exact (pyContains_iff ns (pyStrip l)).mpr ((infix_pyStrip_iff hne hns l).mpr
      ((pyContains_iff ns l).mp hc))

theorem pySplit_ne_nil (sep : Char) (l : List Char) : pySplit sep l ≠ [] := by
  cases l with
  | nil => simp [pySplit]
  | cons c t =>
    simp only [pySplit]
    rcases hc : (c == sep) with _ | _
    · simp only [Bool.false_eq_true, if_false]
      cases pySplit sep t <;> simp
    · simp

theorem pySplit_not_mem (sep : Char) :
    ∀ (l : List Char) (s : List Char), s ∈ pySplit sep l → sep ∉ s := by
  intro l
  induction l with
  | nil =>
    intro s hs
    simp only [pySplit, List.mem_singleton] at hs
    subst hs; simp
  | cons c t ih =>
    intro s hs
    rcases hc : (c == sep) with _ | _
    · simp only [pySplit, hc, Bool.false_eq_true, if_false] at hs
      rcases hsp : pySplit sep t with _ | ⟨s0, ss⟩
      · exact absurd hsp (pySplit_ne_nil sep t)
      · rw [hsp] at hs
        rcases List.mem_cons.mp hs with rfl | hmem
        · intro hmm
          rcases List.mem_cons.mp hmm with rfl | hin
          · simp at hc
          · exact ih s0 (hsp ▸ List.mem_cons_self s0 ss) hin
        · exact ih s (hsp ▸ List.mem_cons_of_mem s0 hmem)
    · simp only [pySplit, hc, if_true] at hs
      rcases List.mem_cons.mp hs with rfl | hmem
      · simp
      · exact ih s hmem

theorem getLastD_mem : ∀ (l : List (List Char)) (d : List Char), l ≠ [] → l.getLastD d ∈ l := by
  intro l
  induction l with
  | nil => intro d h; exact absurd rfl h
  | cons a t ih =>
    intro d _
    cases t with
    | nil => simp [List.getLastD]
    | cons b t' =>
      have := ih a (by simp)
      simp only [List.getLastD]
      exact List.mem_cons_of_mem a this

theorem deriveId_not_mem_slash (l : List Char) : ('/' : Char) ∉ deriveId l := by
  unfold deriveId pyLast
  exact pySplit_not_mem '/' _ _ (getLastD_mem _ _ (pySplit_ne_nil '/' _))

theorem pyRstrip_eq_self {sep : Char} {l : List Char} (h : sep ∉ l) : pyRstrip sep l = l := by
  unfold pyRstrip
  rw [dropWhile_eq_self_of_false _ _ ?_, List.reverse_reverse]
  intro c hc
  have hm : c ∈ l := List.mem_reverse.mp hc
  have : c ≠ sep := fun e => h (e ▸ hm)
  simpa using this

theorem pySplit_eq_single {sep : Char} : ∀ {l : List Char}, sep ∉ l → pySplit sep l = [l] := by
  intro l
  induction l with
  | nil => intro _; rfl
  | cons c t ih =>
    intro h
    have hc : (c == sep) = false := by
      have : c ≠ sep := fun e => h (e ▸ List.mem_cons_self c t)
      simpa using this
    have ht : sep ∉ t := fun e => h (List.mem_cons_of_mem c e)
    simp only [pySplit, hc, Bool.false_eq_true, if_false, ih ht]

theorem cleanId_of_fixed {d : List Char} (hs : pyStrip d = d) (hd : ('/' : Char) ∉ d) :
    cleanId d = d := by
  unfold cleanId
  simp only [hs]
  rcases hc : pyContains (lit "f-droid.org") d with _ | _
  · simp
  · simp only [if_true]
    rw [pyRstrip_eq_self hd, pySplit_eq_single hd]
    rfl

theorem cleanId_deriveId {l : List Char} (hs : pyStrip (deriveId l) = deriveId l) :
    cleanId (deriveId l) = deriveId l :=
  cleanId_of_fixed hs (deriveId_not_mem_slash l)

theorem getMeta_packageName (o : Oracle) (x : List Char) (r : AppRecord)
    (h : get_fdroid_metadata o x = some r) : r.packageName = some (cleanId x) := by
  simp only [get_fdroid_metadata] at h
  rcases ho : o (urlOf (cleanId x)) with _ | ⟨st, p⟩
  · rw [ho] at h; cases h
  · rw [ho] at h
    dsimp only at h
    by_cases hst : st ≠ 200
    · rw [if_pos hst] at h; cases h
    · rw [if_neg hst] at h
      cases h
      rfl

theorem reconcile_mem (o : Oracle) :
    ∀ (lines : List (List Char)) (apps : List AppRecord) (a : AppRecord),
      a ∈ apps → a ∈ (reconcile o lines apps).1 := by
  intro lines
  induction lines with
  | nil => intro apps a ha; simpa [reconcile] using ha
  | cons line rest ih =>
    intro apps a ha
    rw [reconcile]
    split
    · exact ih apps a ha
    · rcases hm : get_fdroid_metadata o (deriveId line) with _ | nd
      · simpa using ih apps a ha
      · simpa using ih (apps ++ [nd]) a (List.mem_append_left _ ha)

theorem reconcile_noop (o : Oracle) :
    ∀ (lines : List (List Char)) (apps : List AppRecord),
      (∀ l ∈ lines, (∃ a ∈ apps, a.packageName = some (deriveId l)) ∨
        get_fdroid_metadata o (deriveId l) = none) →
      reconcile o lines apps = (apps, false) := by
  intro lines
  induction lines with
  | nil => intro apps _; rfl
  | cons line rest ih =>
    intro apps H
    have hrest : ∀ l ∈ rest, (∃ a ∈ apps, a.packageName = some (deriveId l)) ∨
        get_fdroid_metadata o (deriveId l) = none :=
      fun l hl => H l (List.mem_cons_of_mem _ hl)
    rw [reconcile]
    rcases H line (List.mem_cons_self _ _) with ⟨a, ha, hpn⟩ | hnone
    · have hany : (apps.any fun a => decide (a.packageName = some (deriveId line))) = true :=
        List.any_eq_true.mpr ⟨a, ha, by simpa using hpn⟩
      rw [if_pos hany]
      exact ih apps hrest
    · by_cases hany : (apps.any fun a => decide (a.packageName = some (deriveId line))) = true
      · rw [if_pos hany]; exact ih apps hrest
      · rw [if_neg hany, hnone]
        exact ih apps hrest

theorem reconcile_handled (o : Oracle) :
    ∀ (lines : List (List Char)) (apps : List AppRecord) (l : List Char),
      (∀ l' ∈ lines, cleanId (deriveId l') = deriveId l') → l ∈ lines →
      (∃ a ∈ (reconcile o lines apps).1, a.packageName = some (deriveId l)) ∨
        get_fdroid_metadata o (deriveId l) = none := by
  intro lines
  induction lines with
  | nil => intro apps l _ hl; cases hl
  | cons line rest ih =>
    intro apps l H hl
    have H' : ∀ l' ∈ rest, cleanId (deriveId l') = deriveId l' :=
      fun l' h => H l' (List.mem_cons_of_mem _ h)
    rw [reconcile]
    rcases List.mem_cons.mp hl with rfl | hl'
    · by_cases hany : (apps.any fun a => decide (a.packageName = some (deriveId l))) = true
      · rw [if_pos hany]
        obtain ⟨a, ha, hd⟩ := List.any_eq_true.mp hany
        exact Or.inl ⟨a, reconcile_mem o rest apps a ha, of_decide_eq_true hd⟩
      · rw [if_neg hany]
        rcases hm : get_fdroid_metadata o (deriveId l) with _ | nd
        · exact Or.inr rfl
        · left
          refine ⟨nd, ?_, ?_⟩
          · simpa using reconcile_mem o rest (apps ++ [nd]) nd
              (List.mem_append_right _ (List.mem_cons_self _ _))
          · rw [getMeta_packageName o (deriveId l) nd hm, H l (List.mem_cons_self _ _)]
    · by_cases hany : (apps.any fun a => decide (a.packageName = some (deriveId line))) = true
      · rw [if_pos hany]; exact ih apps l H' hl'
      · rw [if_neg hany]
        rcases hm : get_fdroid_metadata o (deriveId line) with _ | nd
        · exact ih apps l H' hl'
        · rcases ih (apps ++ [nd]) l H' hl' with ⟨a, ha, hpn⟩ | hnone
          · exact Or.inl ⟨a, by simpa using ha, hpn⟩
          · exact Or.inr hnone

theorem reconcile_nodup (o : Oracle) :
    ∀ (lines : List (List Char)) (apps : List AppRecord),
      (∀ l ∈ lines, cleanId (deriveId l) = deriveId l) →
      (apps.filterMap AppRecord.packageName).Nodup →
      (((reconcile o lines apps).1).filterMap AppRecord.packageName).Nodup := by
  intro lines
  induction lines with
  | nil => intro apps _ h; simpa [reconcile] using h
  | cons line rest ih =>
    intro apps H hnd
    have H' : ∀ l' ∈ rest, cleanId (deriveId l') = deriveId l' :=
      fun l' h => H l' (List.mem_cons_of_mem _ h)
    rw [reconcile]
    by_cases hany : (apps.any fun a => decide (a.packageName = some (deriveId line))) = true
    · rw [if_pos hany]; exact ih apps H' hnd
    · rw [if_neg hany]
      rcases hm : get_fdroid_metadata o (deriveId line) with _ | nd
      · exact ih apps H' hnd
      · have hpn : nd.packageName = some (deriveId line) := by
          rw [getMeta_packageName o (deriveId line) nd hm, H line (List.mem_cons_self _ _)]
        have hnotin : deriveId line ∉ apps.filterMap AppRecord.packageName := by
          intro hmem
          obtain ⟨a, ha, hap⟩ := List.mem_filterMap.mp hmem
          exact hany (List.any_eq_true.mpr ⟨a, ha, decide_eq_true hap⟩)
        have hnd' : ((apps ++ [nd]).filterMap AppRecord.packageName).Nodup := by
          rw [List.filterMap_append]
          simp only [List.filterMap_cons, hpn, List.filterMap_nil]
          exact ((List.perm_append_singleton _ _).nodup_iff).mpr
            (List.nodup_cons.mpr ⟨hnotin, hnd⟩)
        simpa using ih (apps ++ [nd]) H' hnd'

theorem update_one_update (o : Oracle) (app : AppRecord) (pkg : List Char) (nd : AppRecord)
    (hf : pyContains (lit "f-droid.org") app.repoUrl = true ∨ app.author = some (lit "F-Droid"))
    (h1 : app.packageName = some pkg) (hpk : pkg ≠ [])
    (h2 : get_fdroid_metadata o pkg = some nd)
    (hv : nd.latestVersion.getD [] ≠ app.latestVersion.getD (lit "0.0.0"))
    (hu : nd.latestVersion.getD [] ≠ lit "Unknown") :
    update_one o app =
      ({ app with
          version := nd.latestVersion.getD []
          latestVersion := some (nd.latestVersion.getD [])
          downloadUrl := nd.downloadUrl
          icon := if nd.icon ≠ [] then nd.icon else app.icon }, 1) := by
  have hnfil : ¬(pyContains (lit "f-droid.org") app.repoUrl = false
      ∧ app.author ≠ some (lit "F-Droid")) := by
    rcases hf with hf | hf
    · intro hc; rw [hf] at hc; cases hc.1
    · intro hc; exact hc.2 hf
  simp only [update_one, h1, h2]
  rw [if_neg hnfil, if_neg hpk, if_pos ⟨hv, hu⟩]

/-- Demo page carrying nothing: no title, no summary, no icon, no
screenshots, no version block. -/
def pageBlank : Page := ⟨none, none, none, [], none⟩

/-- Demo page whose version header parses to `1.0.0` and which has no APK link. -/
def pageV1 : Page := ⟨none, none, none, [], some ⟨some (lit "Version 1.0.0"), []⟩⟩

/-- Demo page whose version header parses to `2.0` with one APK link. -/
def pageV2 : Page :=
  ⟨none, none, none, [], some ⟨some (lit "Version 2.0 (Added on 2024)"), [lit "/repo/x.apk"]⟩⟩

/-- Oracle answering every URL with a 200 response carrying `pageBlank`. -/
def oracle200Blank : Oracle := fun _ => .resp 200 pageBlank

/-- Oracle answering every URL with a 200 response carrying `pageV1`. -/
def oracleV1 : Oracle := fun _ => .resp 200 pageV1

/-- Oracle answering every URL with a 200 response carrying `pageV2`. -/
def oracleV2 : Oracle := fun _ => .resp 200 pageV2

/-- Oracle raising an exception on every fetch. -/
def oracleExn : Oracle := fun _ => .exn

/-- Oracle answering every URL with a 404. -/
def oracle404 : Oracle := fun _ => .resp 404 pageBlank

/-- Demo catalog record for package `x`, stored `latestVersion` `1.0.0`. -/
def appX : AppRecord :=
  ⟨lit "x", lit "X App", lit "desc", lit "https://f-droid.org/icon.png", lit "1.0.0",
    some (lit "1.0.0"), lit "https://f-droid.org/repo/x-old.apk",
    lit "https://f-droid.org/en/packages/x/", [], lit "x", some (lit "x"),
    lit "Utility", lit "Android", lit "Varies", some (lit "F-Droid"), []⟩

/-- `appX` with the `latestVersion` key missing. -/
def appXNoVer : AppRecord := { appX with latestVersion := none }

/-- C1 (amended): for every catalog record processed by the Update Sweeper for
which extraction succeeds, if the freshly extracted `latestVersion` equals the
record's stored `latestVersion` (default `"0.0.0"` when the key is absent), or
equals the literal string `"Unknown"` — which is the sweeper's sentinel and is
NOT the default `"Latest"` the Extractor assigns when the version header is
absent — then the record is left entirely untouched and the updated count is
not incremented. -/
theorem c1_sweeper_skips_equal_or_unknown (o : Oracle) (app : AppRecord)
    (pkg : List Char) (nd : AppRecord)
    (h1 : app.packageName = some pkg)
    (h2 : get_fdroid_metadata o pkg = some nd)
    (h3 : nd.latestVersion.getD [] = app.latestVersion.getD (lit "0.0.0")
        ∨ nd.latestVersion.getD [] = lit "Unknown") :
    update_one o app = (app, 0) := by
  simp only [update_one, h1, h2]
  split
  · rfl
  · split
    · rfl
    · split
      · next hcond =>
        rcases h3 with h3 | h3
        · exact absurd h3 hcond.1
        · exact absurd h3 hcond.2
      · rfl

/-- C1 counterexample: on a page whose version header is absent the Extractor
defaults `latestVersion` to `"Latest"` (its "unspecified" sentinel), yet the
sweeper — whose guard only checks `"Unknown"` — rewrites the record and
increments the count, so the claim's sentinel clause is false of the code. -/
theorem c1_counterexample :
    (get_fdroid_metadata oracle200Blank (lit "x")).map AppRecord.latestVersion
      = some (some (lit "Latest"))
    ∧ lacksVersionHeader pageBlank = true
    ∧ (update_one oracle200Blank appX).2 = 1
    ∧ (update_one oracle200Blank appX).1 ≠ appX := by decide

/-- C1 witness: a record whose fresh version equals the stored one is untouched. -/
theorem c1_witness : update_one oracleV1 appX = (appX, 0) :=
  c1_sweeper_skips_equal_or_unknown oracleV1 appX (lit "x")
    (buildRecord (lit "x") (urlOf (lit "x")) pageV1) (by decide) (by decide) (by decide)

/-- C2 (amended): provided each identifier derived from the tracked list is
unchanged by whitespace-trimming (true of every ordinary identifier or URL),
running the reconcile loop twice with the same tracked lines and the same
extraction results leaves the catalog of the first run unchanged, and
`packageName` uniqueness is preserved by a run. -/
theorem c2_reconcile_idempotent (o : Oracle) (lines : List (List Char))
    (apps : List AppRecord)
    (H : ∀ l ∈ lines, pyStrip (deriveId l) = deriveId l) :
    (reconcile o lines (reconcile o lines apps).1).1 = (reconcile o lines apps).1
    ∧ ((apps.filterMap AppRecord.packageName).Nodup →
        (((reconcile o lines apps).1).filterMap AppRecord.packageName).Nodup) := by
  have H' : ∀ l ∈ lines, cleanId (deriveId l) = deriveId l :=
    fun l hl => cleanId_deriveId (H l hl)
  constructor
  · have hh : ∀ l ∈ lines,
        (∃ a ∈ (reconcile o lines apps).1, a.packageName = some (deriveId l)) ∨
          get_fdroid_metadata o (deriveId l) = none :=
      fun l hl => reconcile_handled o lines apps l H' hl
    rw [reconcile_noop o lines (reconcile o lines apps).1 hh]
  · exact reconcile_nodup o lines apps H'

/-- C2 counterexample: the tracked line `"x /"` derives the identifier `"x "`,
but the Extractor trims it and stores `packageName = "x"`; the duplicate check
of the second run compares against `"x "` and misses, so the record is fetched
and appended again — the second run's catalog differs from the first's and
carries a duplicate `packageName`. -/
theorem c2_counterexample :
    (reconcile oracle200Blank [lit "x /"]
        ((reconcile oracle200Blank [lit "x /"] []).1)).1
      ≠ (reconcile oracle200Blank [lit "x /"] []).1
    ∧ ¬ (((reconcile oracle200Blank [lit "x /"]
        ((reconcile oracle200Blank [lit "x /"] []).1)).1).filterMap
          AppRecord.packageName).Nodup := by decide

/-- C2 witness: one clean tracked identifier, starting from the empty catalog. -/
theorem c2_witness :
    (reconcile oracle200Blank [lit "org.example.app"]
        ((reconcile oracle200Blank [lit "org.example.app"] []).1)).1
      = (reconcile oracle200Blank [lit "org.example.app"] []).1
    ∧ ((([] : List AppRecord).filterMap AppRecord.packageName).Nodup →
        (((reconcile oracle200Blank [lit "org.example.app"] []).1).filterMap
          AppRecord.packageName).Nodup) :=
  c2_reconcile_idempotent oracle200Blank [lit "org.example.app"] [] (by decide)

/-- C3 (amended): when the tracked-list file exists, the sync command runs the
reconcile loop and then unconditionally invokes the Update Sweeper on the
persisted result of reconciliation — even when nothing was added or modified;
when the tracked-list file is absent, sync returns early and the Sweeper does
NOT run. -/
theorem c3_sync_runs_sweeper (o : Oracle) (raw : List (List Char)) (fs : FsRead) :
    (sync_tracked_apps o (some raw) fs).2 = true
    ∧ (sync_tracked_apps o (some raw) fs).1 =
        (update_all o (if (reconcile o (filterTracked raw) (load_apps fs)).2
          then FsRead.content (reconcile o (filterTracked raw) (load_apps fs)).1
          else fs)).1
    ∧ (sync_tracked_apps o none fs).2 = false :=
  ⟨rfl, rfl, rfl⟩

/-- C3 counterexample: with the tracked-list file absent, `sync_tracked_apps`
returns early without invoking the Update Sweeper, contradicting
"unconditionally — including when the tracked-list file is absent". -/
theorem c3_counterexample :
    sync_tracked_apps oracleExn none FsRead.absent = (FsRead.absent, false) := rfl

/-- Normalization as the spec's words for C5 state it, amended only by
trimming the input in the domain branch as well (the containment test is
stated on the raw input; trailing slashes are all stripped). -/
def specExtractorId (s : List Char) : List Char :=
  if pyContains (lit "f-droid.org") s then pyLast (pySplit '/' (pyRstrip '/' (pyStrip s)))
  else pyStrip s

/-- C5 (amended): for every input, the identifier the Extractor uses is: the
final path segment — after trimming the input and stripping its trailing
slashes — when the input contains the repository's domain, and the trimmed
input unchanged otherwise; in particular the spec's scenario input normalizes
to `org.example.app`. -/
theorem c5_input_normalization :
    (∀ s : List Char, cleanId s = specExtractorId s)
    ∧ cleanId (lit "https://f-droid.org/en/packages/org.example.app/")
        = lit "org.example.app" := by
  constructor
  · intro s
    simp only [cleanId, specExtractorId]
    rw [pyContains_pyStrip (by decide) (by decide) s]
  · decide

/-- C5 counterexample: on input `"f-droid.org/x "` the code first trims and
uses identifier `"x"`, while the final path segment of the input after
stripping a trailing slash is `"x "` — the claim's untrimmed reading is false. -/
theorem c5_counterexample :
    cleanId (lit "f-droid.org/x ") = lit "x"
    ∧ pyLast (pySplit '/' (pyRstrip '/' (lit "f-droid.org/x "))) = lit "x "
    ∧ lit "x " ≠ lit "x" := by decide

/-- C4: when the Update Sweeper detects a version change (fresh
`latestVersion` differs from the stored one and is not `"Unknown"`), it
overwrites exactly `version`, `latestVersion`, `downloadUrl`, and `icon` only
when the fresh icon is non-empty; the record-update form of the right-hand
side shows every other field of the record unchanged. -/
theorem c4_sweeper_frame (o : Oracle) (app : AppRecord) (pkg : List Char) (nd : AppRecord)
    (hf : pyContains (lit "f-droid.org") app.repoUrl = true ∨ app.author = some (lit "F-Droid"))
    (h1 : app.packageName = some pkg) (hpk : pkg ≠ [])
    (h2 : get_fdroid_metadata o pkg = some nd)
    (hv : nd.latestVersion.getD [] ≠ app.latestVersion.getD (lit "0.0.0"))
    (hu : nd.latestVersion.getD [] ≠ lit "Unknown") :
    update_one o app =
      ({ app with
          version := nd.latestVersion.getD []
          latestVersion := some (nd.latestVersion.getD [])
          downloadUrl := nd.downloadUrl
          icon := if nd.icon ≠ [] then nd.icon else app.icon }, 1)
    ∧ (update_one o app).1.name = app.name
    ∧ (update_one o app).1.description = app.description
    ∧ (update_one o app).1.repoUrl = app.repoUrl
    ∧ (update_one o app).1.packageName = app.packageName
    ∧ (update_one o app).1.category = app.category
    ∧ (update_one o app).1.platform = app.platform
    ∧ (update_one o app).1.size = app.size
    ∧ (update_one o app).1.author = app.author
    ∧ (update_one o app).1.screenshots = app.screenshots
    ∧ (update_one o app).1.id = app.id
    ∧ (update_one o app).1.githubRepo = app.githubRepo
    ∧ (update_one o app).1.releaseKeyword = app.releaseKeyword := by
  have h := update_one_update o app pkg nd hf h1 hpk h2 hv hu
  refine ⟨h, ?_⟩
  rw [h]
  exact ⟨rfl, rfl, rfl, rfl, rfl, rfl, rfl, rfl, rfl, rfl, rfl, rfl⟩

/-- C4 witness: a version change from `1.0.0` to `2.0` on the demo record. -/
theorem c4_witness :
    update_one oracleV2 appX =
      ({ appX with
          version := (buildRecord (lit "x") (urlOf (lit "x")) pageV2).latestVersion.getD []
          latestVersion :=
            some ((buildRecord (lit "x") (urlOf (lit "x")) pageV2).latestVersion.getD [])
          downloadUrl := (buildRecord (lit "x") (urlOf (lit "x")) pageV2).downloadUrl
          icon := if (buildRecord (lit "x") (urlOf (lit "x")) pageV2).icon ≠ []
              then (buildRecord (lit "x") (urlOf (lit "x")) pageV2).icon
              else appX.icon }, 1)
    ∧ (update_one oracleV2 appX).1.name = appX.name
    ∧ (update_one oracleV2 appX).1.description = appX.description
    ∧ (update_one oracleV2 appX).1.repoUrl = appX.repoUrl
    ∧ (update_one oracleV2 appX).1.packageName = appX.packageName
    ∧ (update_one oracleV2 appX).1.category = appX.category
    ∧ (update_one oracleV2 appX).1.platform = appX.platform
    ∧ (update_one oracleV2 appX).1.size = appX.size
    ∧ (update_one oracleV2 appX).1.author = appX.author
    ∧ (update_one oracleV2 appX).1.screenshots = appX.screenshots
    ∧ (update_one oracleV2 appX).1.id = appX.id
    ∧ (update_one oracleV2 appX).1.githubRepo = appX.githubRepo
    ∧ (update_one oracleV2 appX).1.releaseKeyword = appX.releaseKeyword :=
  c4_sweeper_frame oracleV2 appX (lit "x") (buildRecord (lit "x") (urlOf (lit "x")) pageV2)
    (Or.inl (by decide)) (by decide) (by decide) (by decide) (by decide) (by decide)

/-- Python `l.startswith('#')` coincides with the first character being `#`. -/
theorem startswith_hash_eq_head (l : List Char) :
    ['#'].isPrefixOf l = (l.head? == some '#') := by
  cases l with
  | nil => rfl
  | cons c t =>
    by_cases h : c = '#'
    · subst h; simp [List.isPrefixOf]
    · have h1 : ('#' == c) = false := by simpa using (Ne.symm h)
      have h2 : (some c == some '#') = false := by simpa using h
      simp [List.isPrefixOf, List.head?, h1, h2]

/-- C6 (amended): a tracked line is ignored exactly when it is empty after
trimming or its very first character — before any trimming — is `#`; a line
whose `#` follows leading whitespace is NOT ignored; the surviving lines are
kept in file order, trimmed. -/
theorem c6_tracked_line_filter (raw : List (List Char)) :
    filterTracked raw =
      (raw.filter (fun l => !(pyStrip l).isEmpty && !(l.head? == some '#'))).map pyStrip := by
  unfold filterTracked
  congr 1
  apply List.filter_congr
  intro l _
  rw [startswith_hash_eq_head]

/-- C6 counterexample: the line `"  #x"` has `#` as its first non-whitespace
character, yet the code keeps it (trimmed to `"#x"`) because `startswith('#')`
is tested on the raw line — the claim says it is ignored. -/
theorem c6_counterexample :
    (pyStrip (lit "  #x")).head? = some '#'
    ∧ filterTracked [lit "  #x"] = [lit "#x"] := by decide

/-- C7: `load_apps` returns the empty catalog — and cannot raise, being a
total function into lists — when the backing file is absent or unreadable
(including a malformed document), and otherwise returns the persisted ordered
sequence of records unchanged. -/
theorem c7_load_apps_total :
    load_apps FsRead.absent = []
    ∧ load_apps FsRead.unreadable = []
    ∧ ∀ apps : List AppRecord, load_apps (FsRead.content apps) = apps :=
  ⟨rfl, rfl, fun _ => rfl⟩

/-- C8: for every input the Extractor is total — any exception inside the
fetch-and-parse block yields the failure value `none`, a non-200 status yields
`none`, and a 200 response yields a fully populated record; on a page lacking
the version header, that record's `version` and `latestVersion` both equal the
"unspecified" sentinel `"Latest"`. -/
theorem c8_extractor_total (o : Oracle) (input : List Char) (st : Nat) (p : Page) :
    (o (urlOf (cleanId input)) = FetchOutcome.exn → get_fdroid_metadata o input = none)
    ∧ (o (urlOf (cleanId input)) = FetchOutcome.resp st p → st ≠ 200 →
        get_fdroid_metadata o input = none)
    ∧ (o (urlOf (cleanId input)) = FetchOutcome.resp 200 p →
        get_fdroid_metadata o input
          = some (buildRecord (cleanId input) (urlOf (cleanId input)) p))
    ∧ (lacksVersionHeader p = true →
        (buildRecord (cleanId input) (urlOf (cleanId input)) p).version = lit "Latest"
        ∧ (buildRecord (cleanId input) (urlOf (cleanId input)) p).latestVersion
            = some (lit "Latest")) := by
  refine ⟨?_, ?_, ?_, ?_⟩
  · intro h
    simp only [get_fdroid_metadata, h]
  · intro h hst
    simp only [get_fdroid_metadata, h]
    rw [if_pos hst]
  · intro h
    simp only [get_fdroid_metadata, h]
    rw [if_neg (by simp)]
  · intro h
    have hv : extractVersion p = lit "Latest" := by
      unfold lacksVersionHeader at h
      rcases hvi : p.versionItem with _ | vi
      · simp only [extractVersion, hvi]
      · rw [hvi] at h
        dsimp only at h
        simp only [extractVersion, hvi, Option.isNone_iff_eq_none.mp h]
    constructor
    · show extractVersion p = lit "Latest"
      exact hv
    · show some (extractVersion p) = some (lit "Latest")
      rw [hv]

/-- C8 witness: the three outcomes exercised on concrete oracles, plus the
missing-header sentinel. -/
theorem c8_witness :
    get_fdroid_metadata oracleExn (lit "a.b") = none
    ∧ get_fdroid_metadata oracle404 (lit "a.b") = none
    ∧ get_fdroid_metadata oracle200Blank (lit "a.b")
        = some (buildRecord (cleanId (lit "a.b")) (urlOf (cleanId (lit "a.b"))) pageBlank)
    ∧ (buildRecord (cleanId (lit "a.b")) (urlOf (cleanId (lit "a.b"))) pageBlank).version
        = lit "Latest"
    ∧ (buildRecord (cleanId (lit "a.b")) (urlOf (cleanId (lit "a.b"))) pageBlank).latestVersion
        = some (lit "Latest") := by
  have h1 := c8_extractor_total oracleExn (lit "a.b") 0 pageBlank
  have h2 := c8_extractor_total oracle404 (lit "a.b") 404 pageBlank
  have h3 := c8_extractor_total oracle200Blank (lit "a.b") 200 pageBlank
  exact ⟨h1.1 rfl, h2.2.1 rfl (by decide), h3.2.2.1 rfl,
    (h3.2.2.2 (by decide)).1, (h3.2.2.2 (by decide)).2⟩

/-- C9: the CLI exits with explicit code 1 when invoked with no argument; any
first argument other than `sync` or `update` only prints an error message and
requests no explicit exit code (the process ends with its default success
code). -/
theorem c9_cli_dispatch :
    cliMain [] = (some 1, CliEffect.usageMsg)
    ∧ ∀ (c : List Char) (rest : List (List Char)), c ≠ lit "sync" → c ≠ lit "update" →
        cliMain (c :: rest) = (none, CliEffect.unknownMsg) := by
  refine ⟨rfl, ?_⟩
  intro c rest h1 h2
  simp only [cliMain]
  rw [if_neg h1, if_neg h2]

/-- C9 witness: an unknown command. -/
theorem c9_witness : cliMain [lit "bogus"] = (none, CliEffect.unknownMsg) :=
  c9_cli_dispatch.2 (lit "bogus") [] (by decide) (by decide)

/-- C10: a processed record with no stored `latestVersion` key is compared
against the default `"0.0.0"`, so any successful extraction whose fresh
`latestVersion` is neither `"0.0.0"` nor `"Unknown"` overwrites the record's
mutable fields and increments the updated count. -/
theorem c10_missing_version_default (o : Oracle) (app : AppRecord) (pkg : List Char)
    (nd : AppRecord)
    (hnone : app.latestVersion = none)
    (hf : pyContains (lit "f-droid.org") app.repoUrl = true ∨ app.author = some (lit "F-Droid"))
    (h1 : app.packageName = some pkg) (hpk : pkg ≠ [])
    (h2 : get_fdroid_metadata o pkg = some nd)
    (hv0 : nd.latestVersion.getD [] ≠ lit "0.0.0")
    (hu : nd.latestVersion.getD [] ≠ lit "Unknown") :
    update_one o app =
      ({ app with
          version := nd.latestVersion.getD []
          latestVersion := some (nd.latestVersion.getD [])
          downloadUrl := nd.downloadUrl
          icon := if nd.icon ≠ [] then nd.icon else app.icon }, 1) := by
  apply update_one_update o app pkg nd hf h1 hpk h2 ?_ hu
  rw [hnone]
  exact hv0

/-- C10 witness: the demo record with the `latestVersion` key removed is
updated by a `2.0` extraction. -/
theorem c10_witness :
    update_one oracleV2 appXNoVer =
      ({ appXNoVer with
          version := (buildRecord (lit "x") (urlOf (lit "x")) pageV2).latestVersion.getD []
          latestVersion :=
            some ((buildRecord (lit "x") (urlOf (lit "x")) pageV2).latestVersion.getD [])
          downloadUrl := (buildRecord (lit "x") (urlOf (lit "x")) pageV2).downloadUrl
          icon := if (buildRecord (lit "x") (urlOf (lit "x")) pageV2).icon ≠ []
              then (buildRecord (lit "x") (urlOf (lit "x")) pageV2).icon
              else appXNoVer.icon }, 1) :=
  c10_missing_version_default oracleV2 appXNoVer (lit "x")
    (buildRecord (lit "x") (urlOf (lit "x")) pageV2) (by decide) (Or.inl (by decide))
    (by decide) (by decide) (by decide) (by decide) (by decide)
